import Mathlib

/-!
Shallow embedding of the timing / polling engine of `seleniumuser.py`
(class `User`): the polling primitive `wait_until`, the profile switch
`turbo`, the randomized delay `chill`, and the randomized selection helpers
`click_elements` and `get_click_list`.

Modelling conventions:
* Wall-clock time and sleep durations are rationals (`ℚ`).
* `condition` is modelled by its observable behaviour on each call:
  `some b` means the call returned `b`, `none` means it raised an exception.
* The readings of `time.time() - start_time` are an external input: `e1 i`
  is the reading at the `elif` check of loop iteration `i`, `e2 i` the
  reading at the check inside the bare `except:` handler of iteration `i`.
* The random generator is modelled by an oracle `g : Nat → Nat` (the `n`-th
  call of `random.randint(a, b)` returns `a + g n % (b - a + 1)`) or, for
  `random.random()`, by a rational `u` with `0 ≤ u < 1`.
* Loops whose termination depends on the random oracle take fuel and
  return `Option`; `none` covers every abnormal outcome (an exception
  other than the modelled results, or non-termination within the fuel).
-/

namespace Seleniumuser

/-- Terminal states of `User.wait_until`: normal return, or a raised
`TimeoutError`. -/
inductive WaitOutcome
  | success
  | timedOut
  deriving DecidableEq, Repr

/-- Result of one iteration of the `while True:` loop of `wait_until`:
either the loop terminates (`exit`, together with the sleeps performed in
that final iteration), or it continues to the next iteration after the
recorded sleep. -/
inductive Step
  | exit (o : WaitOutcome) (sleeps : List ℚ)
  | next (sleep : ℚ)
  deriving DecidableEq, Repr

/-- One iteration of the loop body of `User.wait_until`
(`seleniumuser.py` lines 604-617).  `c` is the behaviour of `condition()`
on this call, `e1` the elapsed-time reading at the `elif` check, `e2` the
reading at the check inside the bare `except:` handler.  A `TimeoutError`
raised by the `elif` branch is caught by the bare `except:` and the
elapsed time is re-checked there before the final raise. -/
def loopBody (c : Option Bool) (e1 e2 max_wait polling_interval : ℚ) : Step :=
  match c with
  | some true => Step.exit WaitOutcome.success [1]
  | some false =>
      if max_wait < e1 then
        if max_wait < e2 then Step.exit WaitOutcome.timedOut []
        else Step.next polling_interval
      else Step.next polling_interval
  | none =>
      if max_wait < e2 then Step.exit WaitOutcome.timedOut []
      else Step.next polling_interval

/-- The `wait_until` loop, started at iteration `i`, with fuel bounding the
number of iterations.  Returns the terminal state together with the list
of the sleep durations performed, in order. -/
def waitUntilFrom (cond : Nat → Option Bool) (e1 e2 : Nat → ℚ)
    (max_wait polling_interval : ℚ) : Nat → Nat → Option (WaitOutcome × List ℚ)
  | _, 0 => none
  | i, fuel + 1 =>
      match loopBody (cond i) (e1 i) (e2 i) max_wait polling_interval with
      | Step.exit o sleeps => some (o, sleeps)
      | Step.next s =>
          match waitUntilFrom cond e1 e2 max_wait polling_interval (i + 1) fuel with
          | none => none
          | some (o, rest) => some (o, s :: rest)

/-- Model of `User.wait_until(condition, max_wait, polling_interval)`. -/
def wait_until (cond : Nat → Option Bool) (e1 e2 : Nat → ℚ)
    (max_wait polling_interval : ℚ) (fuel : Nat) : Option (WaitOutcome × List ℚ) :=
  waitUntilFrom cond e1 e2 max_wait polling_interval 0 fuel

/-- The mutable state of a `User` instance that the timing engine touches:
the four delay ranges together with the two flags set by `turbo`, plus an
abstraction of the outside world (the log of clicked locators standing for
the browser, and the total time spent sleeping). -/
structure UserState where
  after_key_wait : ℚ × ℚ
  after_field_wait : ℚ × ℚ
  after_click_wait : ℚ × ℚ
  arrival_wait : ℚ × ℚ
  one_key_at_a_time : Bool
  turbo_engaged : Bool
  clicks : List String
  slept : ℚ
  deriving DecidableEq, Repr

/-- The four delay ranges of the timing profile. -/
def timingProfile (s : UserState) : (ℚ × ℚ) × (ℚ × ℚ) × (ℚ × ℚ) × (ℚ × ℚ) :=
  (s.after_key_wait, s.after_field_wait, s.after_click_wait, s.arrival_wait)

/-- Model of `User.turbo(engage)` (`seleniumuser.py` lines 294-315). -/
def turbo (engage : Bool) (s : UserState) : UserState :=
  if engage then
    { s with
      after_key_wait := (0, 0)
      after_field_wait := (0, 0)
      after_click_wait := (0, 0)
      arrival_wait := (1, 1)
      one_key_at_a_time := false
      turbo_engaged := true }
  else
    { s with
      after_key_wait := (1/10, 1/2)
      after_field_wait := (1, 2)
      after_click_wait := (1/4, 3/2)
      arrival_wait := (4, 10)
      one_key_at_a_time := true
      turbo_engaged := false }

/-- Model of `random.uniform(a, b)`: `a + (b - a) * u` where `u` models the value of
`random.random()`, so `0 ≤ u < 1`. -/
def uniform (a b u : ℚ) : ℚ :=
  a + (b - a) * u

/-- Model of `User.chill(min_max)` (`seleniumuser.py` lines 317-320):
`time.sleep(random.uniform(min_max[0], min_max[1]))`. -/
def chill (min_max : ℚ × ℚ) (u : ℚ) (s : UserState) : UserState :=
  { s with slept := s.slept + uniform min_max.1 min_max.2 u }

/-- Model of `User.click(locator)` (`seleniumuser.py` lines 401-406): click the
element (recorded in the world log), sleep `after_click_wait`, and return
the element, modelled by its locator. -/
def click (locator : String) (u : ℚ) (s : UserState) : String × UserState :=
  (locator, chill s.after_click_wait u { s with clicks := s.clicks ++ [locator] })

/-- The `for` loop of `User.click_elements`: click each sampled locator in
order; `u j` models the `random.uniform` draw of the chill after the
`j`-th click. -/
def clickAll (u : Nat → ℚ) : List String → Nat → UserState → UserState
  | [], _, s => s
  | loc :: rest, j, s => clickAll u rest (j + 1) (click loc (u j) s).2

/-- Model of `random.sample(pool, k)`: pick `k` elements at pairwise-distinct
positions, one at a time; the `n`-th draw removes the element at position
`g n % |pool|` of the remaining pool.  Returns `none` when `k` exceeds the
pool size (`random.sample` raises `ValueError`). -/
def sampleAux (g : Nat → Nat) : Nat → Nat → List String → Option (List String)
  | _, 0, _ => some []
  | ctr, k + 1, pool =>
      if h : 0 < pool.length then
        match sampleAux g (ctr + 1) k (pool.eraseIdx (g ctr % pool.length)) with
        | none => none
        | some rest => some (pool.get ⟨g ctr % pool.length, Nat.mod_lt _ h⟩ :: rest)
      else none

/-- The `max_selections` default of `User.click_elements`: the Python guard
`if not max_selections:` replaces both `None` and `0` by `len(locators)`. -/
def resolveMax (locators : List String) : Option Nat → Nat
  | none => locators.length
  | some m => if m = 0 then locators.length else m

/-- Model of `User.click_elements(locators, max_selections, min_selections)`
(`seleniumuser.py` lines 453-475).  `g 0` feeds `random.randint`, `g 1, …`
feed `random.sample`; `u` feeds the per-click `chill`.  `none` models a
raised exception (`ValueError` from `randint`/`sample`, or the unbound
`element` when the sampled list is empty). -/
def click_elements (locators : List String) (max_selections : Option Nat)
    (min_selections : Nat) (g : Nat → Nat) (u : Nat → ℚ) (s : UserState) :
    Option (String × UserState) :=
  if min_selections ≤ resolveMax locators max_selections then
    match
      sampleAux g 1
        (min_selections +
          g 0 % (resolveMax locators max_selections - min_selections + 1))
        locators
    with
    | none => none
    | some chosen =>
        match chosen.getLast? with
        | none => none
        | some e => some (e, clickAll u chosen 0 s)
  else none

/-- Model of `Keys.SPACE`, the value `User.get_click_list` stores in chosen slots. -/
def SPACE : String := "\ue00d"

/-- The inner `while index in selected_indexes:` loop of
`User.get_click_list`: draw `random.randint(0, num_options - 1)` (modelled
as `g ctr % num_options`) until the index is unused.  Fuel bounds the
number of draws; `none` also covers `num_options = 0`, where
`random.randint(0, -1)` raises `ValueError`. -/
def pickIndex (num_options : Nat) (g : Nat → Nat) (selected : List Nat) :
    Nat → Nat → Option (Nat × Nat)
  | _, 0 => none
  | ctr, fuel + 1 =>
      if num_options = 0 then none
      else
        if g ctr % num_options ∈ selected then
          pickIndex num_options g selected (ctr + 1) fuel
        else some (g ctr % num_options, ctr + 1)

/-- The outer `for` loop of `User.get_click_list`: `n` more indices to
select, `ctr` the next random draw, `selected` the indices chosen so far,
`click_list` the list under construction. -/
def clickLoop (num_options : Nat) (g : Nat → Nat) (pick_fuel : Nat) :
    Nat → Nat → List Nat → List String → Option (List String × List Nat)
  | 0, _, selected, click_list => some (click_list, selected)
  | n + 1, ctr, selected, click_list =>
      match pickIndex num_options g selected ctr pick_fuel with
      | none => none
      | some (index, ctr2) =>
          clickLoop num_options g pick_fuel n ctr2 (selected ++ [index])
            (click_list.set index SPACE)

/-- Model of `User.get_click_list(num_options, max_choices, min_choices)`
(`seleniumuser.py` lines 477-494).  `g 0` feeds the
`random.randint(min_choices, max_choices)` count draw (`ValueError`, i.e.
`none`, when `min_choices > max_choices`); `g 1, …` feed the index
draws. -/
def get_click_list (num_options max_choices min_choices : Nat) (g : Nat → Nat)
    (fuel : Nat) : Option (List String) :=
  if min_choices ≤ max_choices then
    match
      clickLoop num_options g fuel
        (min_choices + g 0 % (max_choices - min_choices + 1)) 1 []
        (List.replicate num_options "skip")
    with
    | none => none
    | some (click_list, _) => some click_list
  else none

/-- Lift of `wait_until` to an operation on a `User` state: the loop reads the
clock and the condition but only sleeps; the profile fields are untouched. -/
def wait_until_op (cond : Nat → Option Bool) (e1 e2 : Nat → ℚ)
    (max_wait polling_interval : ℚ) (fuel : Nat) (s : UserState) :
    Option (WaitOutcome × UserState) :=
  match wait_until cond e1 e2 max_wait polling_interval fuel with
  | none => none
  | some (o, sleeps) => some (o, { s with slept := s.slept + sleeps.sum })

/-- Invariant of the selection loop of `get_click_list`: the list under
construction has length `num_options`, the selected indices are distinct
and in range, the number of `SPACE` slots equals the number of selected
indices, and a slot holds `SPACE` exactly when its index was selected. -/
def ClickInv (n : Nat) (selected : List Nat) (l : List String) : Prop :=
  l.length = n ∧ selected.Nodup ∧ (∀ x ∈ selected, x < n) ∧
    l.count SPACE = selected.length ∧
    ∀ (i : Nat) (h : i < l.length), l[i] = if i ∈ selected then SPACE else "skip"

/-- The state of a fresh `User` right after `__init__` ran `self.turbo()`:
the turbo profile, an empty world log. -/
def initState : UserState :=
  { after_key_wait := (0, 0)
    after_field_wait := (0, 0)
    after_click_wait := (0, 0)
    arrival_wait := (1, 1)
    one_key_at_a_time := false
    turbo_engaged := true
    clicks := []
    slept := 0 }

theorem loopBody_exit_cases (c : Option Bool) (e1 e2 mw pi : ℚ) (o : WaitOutcome)
    (sl : List ℚ) (h : loopBody c e1 e2 mw pi = Step.exit o sl) :
    (o = WaitOutcome.success ∧ sl = [1] ∧ c = some true) ∨
      (o = WaitOutcome.timedOut ∧ sl = []) := by
  cases c with
  | none =>
      simp only [loopBody] at h
      split at h
      · cases h; exact Or.inr ⟨rfl, rfl⟩
      · cases h
  | some b =>
      cases b with
      | true =>
          simp only [loopBody] at h
          cases h
          exact Or.inl ⟨rfl, rfl, rfl⟩
      | false =>
          simp only [loopBody] at h
          split at h
          · split at h
            · cases h; exact Or.inr ⟨rfl, rfl⟩
            · cases h
          · cases h

theorem loopBody_next_sleep (c : Option Bool) (e1 e2 mw pi s : ℚ)
    (h : loopBody c e1 e2 mw pi = Step.next s) : s = pi := by
  cases c with
  | none =>
      simp only [loopBody] at h
      split at h
      · cases h
      · cases h; rfl
  | some b =>
      cases b with
      | true => simp only [loopBody] at h; cases h
      | false =>
          simp only [loopBody] at h
          split at h
          · split at h
            · cases h
            · cases h; rfl
          · cases h; rfl

theorem loopBody_exits (c : Option Bool) (e1 e2 mw pi : ℚ) (h12 : e1 ≤ e2)
    (h : c = some true ∨ mw < e1) :
    ∃ o sl, loopBody c e1 e2 mw pi = Step.exit o sl := by
  rcases h with h | h
  · subst h; exact ⟨_, _, rfl⟩
  · have h2 : mw < e2 := lt_of_lt_of_le h h12
    cases c with
    | none => exact ⟨WaitOutcome.timedOut, [], by simp [loopBody, h2]⟩
    | some b =>
        cases b with
        | true => exact ⟨_, _, rfl⟩
        | false => exact ⟨WaitOutcome.timedOut, [], by simp [loopBody, h, h2]⟩

theorem waitUntilFrom_exit_step (cond : Nat → Option Bool) (e1 e2 : Nat → ℚ)
    (mw pi : ℚ) (i fuel : Nat) (o : WaitOutcome) (sl : List ℚ)
    (hstep : loopBody (cond i) (e1 i) (e2 i) mw pi = Step.exit o sl) :
    waitUntilFrom cond e1 e2 mw pi i (fuel + 1) = some (o, sl) := by
  simp [waitUntilFrom, hstep]

theorem waitUntilFrom_next_step (cond : Nat → Option Bool) (e1 e2 : Nat → ℚ)
    (mw pi : ℚ) (i fuel : Nat) (s : ℚ) (o : WaitOutcome) (rest : List ℚ)
    (hstep : loopBody (cond i) (e1 i) (e2 i) mw pi = Step.next s)
    (hrec : waitUntilFrom cond e1 e2 mw pi (i + 1) fuel = some (o, rest)) :
    waitUntilFrom cond e1 e2 mw pi i (fuel + 1) = some (o, s :: rest) := by
  simp [waitUntilFrom, hstep, hrec]

theorem waitUntilFrom_exn_step (cond : Nat → Option Bool) (e1 e2 : Nat → ℚ)
    (mw pi : ℚ) (i fuel : Nat) (hc : cond i = none) (ht : e2 i ≤ mw) :
    waitUntilFrom cond e1 e2 mw pi i (fuel + 1)
      = Option.map (fun r => (r.1, pi :: r.2))
          (waitUntilFrom cond e1 e2 mw pi (i + 1) fuel) := by
  have hn : ¬ mw < e2 i := not_lt.2 ht
  cases hrec : waitUntilFrom cond e1 e2 mw pi (i + 1) fuel with
  | none => simp [waitUntilFrom, loopBody, hc, hn, hrec]
  | some r =>
      obtain ⟨o, rest⟩ := r
      simp [waitUntilFrom, loopBody, hc, hn, hrec]

theorem waitUntilFrom_true_step (cond : Nat → Option Bool) (e1 e2 : Nat → ℚ)
    (mw pi : ℚ) (i fuel : Nat) (hc : cond i = some true) :
    waitUntilFrom cond e1 e2 mw pi i (fuel + 1)
      = some (WaitOutcome.success, [1]) := by
  simp [waitUntilFrom, loopBody, hc]

theorem waitUntilFrom_trace (cond : Nat → Option Bool) (e1 e2 : Nat → ℚ)
    (mw pi : ℚ) (fuel : Nat) :
    ∀ i o tr, waitUntilFrom cond e1 e2 mw pi i fuel = some (o, tr) →
      ∃ p rest, tr = p ++ rest ∧ (∀ x ∈ p, x = pi) ∧
        ((o = WaitOutcome.success ∧ rest = [1]) ∨
          (o = WaitOutcome.timedOut ∧ rest = [])) := by
  induction fuel with
  | zero => intro i o tr h; simp [waitUntilFrom] at h
  | succ n ih =>
      intro i o tr h
      cases hstep : loopBody (cond i) (e1 i) (e2 i) mw pi with
      | exit o2 sl =>
          simp only [waitUntilFrom, hstep, Option.some.injEq, Prod.mk.injEq] at h
          obtain ⟨ho, htr⟩ := h
          rcases loopBody_exit_cases _ _ _ _ _ _ _ hstep with ⟨hsucc, hsl, _⟩ | ⟨hto, hsl⟩
          · exact ⟨[], tr, rfl, by simp, Or.inl ⟨ho ▸ hsucc, htr ▸ hsl.symm ▸ rfl⟩⟩
          · exact ⟨[], tr, rfl, by simp, Or.inr ⟨ho ▸ hto, htr ▸ hsl.symm ▸ rfl⟩⟩
      | next s =>
          have hs : s = pi := loopBody_next_sleep _ _ _ _ _ _ hstep
          cases hrec : waitUntilFrom cond e1 e2 mw pi (i + 1) n with
          | none => simp [waitUntilFrom, hstep, hrec] at h
          | some r =>
              obtain ⟨o2, rest2⟩ := r
              simp only [waitUntilFrom, hstep, hrec, Option.some.injEq,
                Prod.mk.injEq] at h
              obtain ⟨ho, htr⟩ := h
              obtain ⟨p, restp, htr2, hp, hcase⟩ := ih (i + 1) o2 rest2 hrec
              refine ⟨pi :: p, restp, ?_, ?_, ?_⟩
              · rw [← htr, hs, htr2]; rfl
              · intro x hx
                rcases List.mem_cons.1 hx with hx | hx
                · exact hx
                · exact hp x hx
              · rw [← ho]; exact hcase

theorem waitUntilFrom_total (cond : Nat → Option Bool) (e1 e2 : Nat → ℚ)
    (mw pi : ℚ) (hmono : ∀ j, e1 j ≤ e2 j) :
    ∀ k i, (cond (i + k) = some true ∨ mw < e1 (i + k)) →
      ∃ r, waitUntilFrom cond e1 e2 mw pi i (k + 1) = some r := by
  intro k
  induction k with
  | zero =>
      intro i hex
      obtain ⟨o, sl, hx⟩ := loopBody_exits (cond i) (e1 i) (e2 i) mw pi (hmono i)
        (by simpa using hex)
      exact ⟨(o, sl), by simp [waitUntilFrom, hx]⟩
  | succ n ih =>
      intro i hex
      cases hstep : loopBody (cond i) (e1 i) (e2 i) mw pi with
      | exit o sl => exact ⟨(o, sl), by simp [waitUntilFrom, hstep]⟩
      | next s =>
          have hex2 : cond (i + 1 + n) = some true ∨ mw < e1 (i + 1 + n) := by
            have hq : i + 1 + n = i + (n + 1) := by omega
            rw [hq]; exact hex
          obtain ⟨⟨o, rest⟩, hr⟩ := ih (i + 1) hex2
          exact ⟨(o, s :: rest),
            waitUntilFrom_next_step cond e1 e2 mw pi i (n + 1) s o rest hstep hr⟩

theorem waitUntilFrom_success_requires_true (cond : Nat → Option Bool)
    (e1 e2 : Nat → ℚ) (mw pi : ℚ) (fuel : Nat) :
    ∀ i tr, waitUntilFrom cond e1 e2 mw pi i fuel = some (WaitOutcome.success, tr) →
      ∃ j, cond j = some true := by
  induction fuel with
  | zero => intro i tr h; simp [waitUntilFrom] at h
  | succ n ih =>
      intro i tr h
      cases hstep : loopBody (cond i) (e1 i) (e2 i) mw pi with
      | exit o2 sl =>
          simp only [waitUntilFrom, hstep, Option.some.injEq, Prod.mk.injEq] at h
          obtain ⟨ho, -⟩ := h
          rcases loopBody_exit_cases _ _ _ _ _ _ _ hstep with ⟨-, -, hc⟩ | ⟨hto, -⟩
          · exact ⟨i, hc⟩
          · rw [ho] at hto; cases hto
      | next s =>
          cases hrec : waitUntilFrom cond e1 e2 mw pi (i + 1) n with
          | none => simp [waitUntilFrom, hstep, hrec] at h
          | some r =>
              obtain ⟨o2, rest2⟩ := r
              simp only [waitUntilFrom, hstep, hrec, Option.some.injEq,
                Prod.mk.injEq] at h
              obtain ⟨ho, -⟩ := h
              exact ih (i + 1) rest2 (by rw [hrec, ho])

/-- C1 (counterexample to the claim as stated): a condition that is true on its very
first call makes `wait_until` return success even though every elapsed-time
reading (100) already exceeds `max_wait` (10): elapsed time is not checked
before the first evaluation nor after an evaluation that returns true, so
exceeding `max_wait` does not always raise a `TimeoutError`. -/
theorem wait_until_success_ignores_elapsed_cex :
    wait_until (fun _ => some true) (fun _ => 100) (fun _ => 100) 10 (1/10) 1
      = some (WaitOutcome.success, [1]) ∧ (10 : ℚ) < 100 := by
  exact ⟨rfl, by norm_num⟩

/-- C1 (amended): elapsed time is checked against `max_wait` after each
evaluation of `condition` that does not return true (and after each
exception it raises) — equivalently, before each subsequent evaluation,
though not before the first one and not after an evaluation that returns
true — and whenever such a check finds elapsed time exceeding `max_wait`
the call raises `TimeoutError` at once (no further sleep or evaluation). -/
theorem wait_until_check_after_failed_eval (cond : Nat → Option Bool)
    (e1 e2 : Nat → ℚ) (mw pi : ℚ) (i fuel : Nat) (hne : cond i ≠ some true)
    (hx : mw < e1 i) (h12 : e1 i ≤ e2 i) :
    waitUntilFrom cond e1 e2 mw pi i (fuel + 1)
      = some (WaitOutcome.timedOut, []) := by
  have h2 : mw < e2 i := lt_of_lt_of_le hx h12
  cases hc : cond i with
  | none => simp [waitUntilFrom, loopBody, hc, h2]
  | some b =>
      cases b with
      | true => exact absurd hc hne
      | false => simp [waitUntilFrom, loopBody, hc, hx, h2]

theorem wait_until_check_after_failed_eval_witness :
    waitUntilFrom (fun _ => some false) (fun _ => 11) (fun _ => 11) 10 (1/10) 0 1
      = some (WaitOutcome.timedOut, []) :=
  wait_until_check_after_failed_eval (fun _ => some false) (fun _ => 11)
    (fun _ => 11) 10 (1/10) 0 0 (by decide) (by norm_num) (le_refl _)

/-- C2: an exception raised by `condition()` is swallowed and treated
exactly as the condition being not yet true — the loop sleeps
`polling_interval` and retries — and in particular a condition that raises
on its first two calls and then returns true makes `wait_until` return
success (after the two polling sleeps and the settle sleep) without
propagating the exception. -/
theorem wait_until_swallows_exceptions :
    (∀ (cond : Nat → Option Bool) (e1 e2 : Nat → ℚ) (mw pi : ℚ) (i fuel : Nat),
        cond i = none → e2 i ≤ mw →
        waitUntilFrom cond e1 e2 mw pi i (fuel + 1)
          = Option.map (fun r => (r.1, pi :: r.2))
              (waitUntilFrom cond e1 e2 mw pi (i + 1) fuel)) ∧
    (∀ (cond : Nat → Option Bool) (e1 e2 : Nat → ℚ) (mw pi : ℚ) (fuel : Nat),
        cond 0 = none → cond 1 = none → cond 2 = some true →
        e2 0 ≤ mw → e2 1 ≤ mw →
        wait_until cond e1 e2 mw pi (fuel + 3)
          = some (WaitOutcome.success, [pi, pi, 1])) := by
  constructor
  · intro cond e1 e2 mw pi i fuel hc ht
    exact waitUntilFrom_exn_step cond e1 e2 mw pi i fuel hc ht
  · intro cond e1 e2 mw pi fuel h0 h1 h2 t0 t1
    show waitUntilFrom cond e1 e2 mw pi 0 (fuel + 2 + 1) = _
    rw [waitUntilFrom_exn_step cond e1 e2 mw pi 0 (fuel + 2) h0 t0]
    show Option.map _ (waitUntilFrom cond e1 e2 mw pi 1 (fuel + 1 + 1)) = _
    rw [waitUntilFrom_exn_step cond e1 e2 mw pi 1 (fuel + 1) h1 t1]
    show Option.map _ (Option.map _
      (waitUntilFrom cond e1 e2 mw pi 2 (fuel + 1))) = _
    rw [waitUntilFrom_true_step cond e1 e2 mw pi 2 fuel h2]
    rfl

theorem wait_until_swallows_exceptions_witness :
    wait_until (fun n => if n < 2 then none else some true) (fun _ => 0)
        (fun _ => 0) 10 (1/10) (0 + 3)
      = some (WaitOutcome.success, [1/10, 1/10, 1]) :=
  wait_until_swallows_exceptions.2 (fun n => if n < 2 then none else some true)
    (fun _ => 0) (fun _ => 0) 10 (1/10) 0 (by decide) (by decide) (by decide)
    (by norm_num) (by norm_num)

/-- C3: whenever `wait_until` returns success its final sleep is exactly
the fixed 1-second settle delay (every earlier sleep being a
`polling_interval` sleep), and a condition that is true on its first call
yields success after exactly the 1-second settle delay and nothing else. -/
theorem wait_until_settle_delay :
    (∀ (cond : Nat → Option Bool) (e1 e2 : Nat → ℚ) (mw pi : ℚ) (fuel : Nat)
        (o : WaitOutcome) (tr : List ℚ),
        wait_until cond e1 e2 mw pi fuel = some (o, tr) →
        o = WaitOutcome.success → ∃ p, tr = p ++ [1] ∧ ∀ x ∈ p, x = pi) ∧
    (∀ (cond : Nat → Option Bool) (e1 e2 : Nat → ℚ) (mw pi : ℚ) (fuel : Nat),
        cond 0 = some true →
        wait_until cond e1 e2 mw pi (fuel + 1)
          = some (WaitOutcome.success, [1])) := by
  constructor
  · intro cond e1 e2 mw pi fuel o tr h ho
    obtain ⟨p, rest, htr, hp, hcase⟩ :=
      waitUntilFrom_trace cond e1 e2 mw pi fuel 0 o tr h
    rcases hcase with ⟨-, hrest⟩ | ⟨hto, -⟩
    · exact ⟨p, by rw [htr, hrest], hp⟩
    · rw [ho] at hto; cases hto
  · intro cond e1 e2 mw pi fuel h0
    exact waitUntilFrom_true_step cond e1 e2 mw pi 0 fuel h0

theorem wait_until_settle_delay_witness :
    (∃ p, ([1] : List ℚ) = p ++ [1] ∧ ∀ x ∈ p, x = (1/10 : ℚ)) ∧
      wait_until (fun _ => some true) (fun _ => 0) (fun _ => 0) 10 (1/10) (0 + 1)
        = some (WaitOutcome.success, [1]) :=
  ⟨wait_until_settle_delay.1 (fun _ => some true) (fun _ => 0) (fun _ => 0) 10
      (1/10) 1 WaitOutcome.success [1] rfl rfl,
    wait_until_settle_delay.2 (fun _ => some true) (fun _ => 0) (fun _ => 0) 10
      (1/10) 0 rfl⟩

/-- C4: provided the elapsed-time readings are consistent (`e1 ≤ e2`)
and the clock eventually makes an exit check fire (the condition becomes
true or a reading exceeds `max_wait`, which real monotone time guarantees
since every retry sleeps), `wait_until` terminates in one of exactly two
terminal states — success or a raised `TimeoutError` — no other exception
escapes the loop, and if the condition never returns true the terminal
state is the `TimeoutError`. -/
theorem wait_until_two_terminal_states (cond : Nat → Option Bool)
    (e1 e2 : Nat → ℚ) (mw pi : ℚ) (hmono : ∀ j, e1 j ≤ e2 j)
    (hclock : ∃ i, cond i = some true ∨ mw < e1 i) :
    ∃ fuel o tr, wait_until cond e1 e2 mw pi fuel = some (o, tr) ∧
      (o = WaitOutcome.success ∨ o = WaitOutcome.timedOut) ∧
      ((∀ j, cond j ≠ some true) → o = WaitOutcome.timedOut) := by
  obtain ⟨i, hi⟩ := hclock
  obtain ⟨⟨o, tr⟩, hr⟩ := waitUntilFrom_total cond e1 e2 mw pi hmono i 0
    (by simpa using hi)
  refine ⟨i + 1, o, tr, hr, ?_, ?_⟩
  · cases o
    · exact Or.inl rfl
    · exact Or.inr rfl
  · intro hnever
    cases o with
    | success =>
        obtain ⟨j, hj⟩ :=
          waitUntilFrom_success_requires_true cond e1 e2 mw pi (i + 1) 0 tr hr
        exact absurd hj (hnever j)
    | timedOut => rfl

theorem wait_until_two_terminal_states_witness :
    ∃ fuel o tr,
      wait_until (fun _ => none) (fun j => (j : ℚ)) (fun j => (j : ℚ)) 2 (1/10)
          fuel = some (o, tr) ∧
        (o = WaitOutcome.success ∨ o = WaitOutcome.timedOut) ∧
        ((∀ j, (fun _ : Nat => (none : Option Bool)) j ≠ some true) →
          o = WaitOutcome.timedOut) :=
  wait_until_two_terminal_states (fun _ => none) (fun j => (j : ℚ))
    (fun j => (j : ℚ)) 2 (1/10) (fun j : Nat => le_refl ((j : ℚ)))
    ⟨3, Or.inr (by norm_num)⟩

theorem clickAll_timing (u : Nat → ℚ) :
    ∀ (locs : List String) (j : Nat) (s : UserState),
      timingProfile (clickAll u locs j s) = timingProfile s := by
  intro locs
  induction locs with
  | nil => intro j s; rfl
  | cons l rest ih =>
      intro j s
      show timingProfile (clickAll u rest (j + 1) (click l (u j) s).2) = _
      rw [ih]
      rfl

theorem clickAll_clicks (u : Nat → ℚ) :
    ∀ (locs : List String) (j : Nat) (s : UserState),
      (clickAll u locs j s).clicks = s.clicks ++ locs := by
  intro locs
  induction locs with
  | nil => intro j s; simp [clickAll]
  | cons l rest ih =>
      intro j s
      show (clickAll u rest (j + 1) (click l (u j) s).2).clicks = _
      rw [ih]
      show (s.clicks ++ [l]) ++ rest = s.clicks ++ l :: rest
      simp

/-- C5: `turbo(True)` sets `after_key_wait`, `after_field_wait` and
`after_click_wait` to the zero range `(0, 0)` and `arrival_wait` to the
fixed range `(1, 1)`, while `turbo(False)` sets all four ranges to the
human ranges `(0.1, 0.5)`, `(1, 2)`, `(0.25, 1.5)`, `(4, 10)`, whose
endpoints are all positive; the resulting profile is a function of the
`engage` flag alone (independent of the prior state), so a single call
updates all four ranges together with no observable partial state. -/
theorem turbo_profiles (s : UserState) :
    (turbo true s).after_key_wait = (0, 0) ∧
    (turbo true s).after_field_wait = (0, 0) ∧
    (turbo true s).after_click_wait = (0, 0) ∧
    (turbo true s).arrival_wait = (1, 1) ∧
    (turbo false s).after_key_wait = (1/10, 1/2) ∧
    (turbo false s).after_field_wait = (1, 2) ∧
    (turbo false s).after_click_wait = (1/4, 3/2) ∧
    (turbo false s).arrival_wait = (4, 10) ∧
    (0 < (turbo false s).after_key_wait.1 ∧ 0 < (turbo false s).after_key_wait.2 ∧
      0 < (turbo false s).after_field_wait.1 ∧
      0 < (turbo false s).after_field_wait.2 ∧
      0 < (turbo false s).after_click_wait.1 ∧
      0 < (turbo false s).after_click_wait.2 ∧
      0 < (turbo false s).arrival_wait.1 ∧ 0 < (turbo false s).arrival_wait.2) ∧
    (∀ s2 : UserState,
      timingProfile (turbo true s) = timingProfile (turbo true s2) ∧
        timingProfile (turbo false s) = timingProfile (turbo false s2)) := by
  refine ⟨rfl, rfl, rfl, rfl, rfl, rfl, rfl, rfl, ?_, ?_⟩
  · refine ⟨?_, ?_, ?_, ?_, ?_, ?_, ?_, ?_⟩ <;> norm_num [turbo]
  · intro s2
    exact ⟨rfl, rfl⟩

/-- C6: the four delay ranges of the timing profile are left unchanged
by every engine operation other than `turbo`: by `chill`, by `click`, by
`click_elements`, and by `wait_until` (lifted to the state); `get_click_list`
does not touch the state at all. -/
theorem timing_profile_frame :
    (∀ (mm : ℚ × ℚ) (u : ℚ) (s : UserState),
        timingProfile (chill mm u s) = timingProfile s) ∧
    (∀ (loc : String) (u : ℚ) (s : UserState),
        timingProfile (click loc u s).2 = timingProfile s) ∧
    (∀ (locators : List String) (mxo : Option Nat) (mn : Nat) (g : Nat → Nat)
        (u : Nat → ℚ) (s : UserState) (e : String) (s2 : UserState),
        click_elements locators mxo mn g u s = some (e, s2) →
        timingProfile s2 = timingProfile s) ∧
    (∀ (cond : Nat → Option Bool) (e1 e2 : Nat → ℚ) (mw pi : ℚ) (fuel : Nat)
        (s : UserState) (o : WaitOutcome) (s2 : UserState),
        wait_until_op cond e1 e2 mw pi fuel s = some (o, s2) →
        timingProfile s2 = timingProfile s) := by
  refine ⟨fun mm u s => rfl, fun loc u s => rfl, ?_, ?_⟩
  · intro locators mxo mn g u s e s2 h
    rw [click_elements] at h
    split at h
    · split at h
      · cases h
      · split at h
        · cases h
        · cases h
          exact clickAll_timing u _ 0 s
    · cases h
  · intro cond e1 e2 mw pi fuel s o s2 h
    rw [wait_until_op] at h
    split at h
    · cases h
    · cases h
      rfl

theorem timing_profile_frame_witness :
    timingProfile (clickAll (fun _ => 0) ["a"] 0 initState)
        = timingProfile initState ∧
      timingProfile
          { initState with slept := initState.slept + List.sum [(1 : ℚ)] }
        = timingProfile initState :=
  ⟨timing_profile_frame.2.2.1 ["a"] none 1 (fun _ => 0) (fun _ => 0) initState
      "a" (clickAll (fun _ => 0) ["a"] 0 initState) rfl,
    timing_profile_frame.2.2.2 (fun _ => some true) (fun _ => 0) (fun _ => 0)
      10 (1/10) 1 initState WaitOutcome.success
      { initState with slept := initState.slept + List.sum [(1 : ℚ)] } rfl⟩

/-- C7: `chill((min, max))` with `min ≤ max` sleeps for the uniformly
sampled duration `min + (max - min) * u`, which lies within
`[min, max]` for every value `u ∈ [0, 1)` of `random.random()`; when
`min = max = 0` the sampled duration is `0` and the call leaves the state
completely unchanged (a no-op), so the after-action waits of the turbo
profile
add zero overhead. -/
theorem chill_uniform_bounds (mn mx u : ℚ) (s : UserState) (hle : mn ≤ mx)
    (h0 : 0 ≤ u) (h1 : u < 1) :
    (chill (mn, mx) u s).slept = s.slept + uniform mn mx u ∧
    mn ≤ uniform mn mx u ∧ uniform mn mx u ≤ mx ∧
    (mn = 0 → mx = 0 → chill (mn, mx) u s = s) := by
  refine ⟨rfl, ?_, ?_, ?_⟩
  · have hnn : 0 ≤ (mx - mn) * u := mul_nonneg (sub_nonneg.2 hle) h0
    show mn ≤ mn + (mx - mn) * u
    linarith
  · have hub : (mx - mn) * u ≤ (mx - mn) * 1 :=
      mul_le_mul_of_nonneg_left (le_of_lt h1) (sub_nonneg.2 hle)
    show mn + (mx - mn) * u ≤ mx
    linarith
  · intro hmn hmx
    subst hmn; subst hmx
    cases s
    simp [chill, uniform]

theorem chill_uniform_bounds_witness :
    (chill (0, 1) (1/2) initState).slept = initState.slept + uniform 0 1 (1/2) ∧
      (0 : ℚ) ≤ uniform 0 1 (1/2) ∧ uniform 0 1 (1/2) ≤ 1 ∧
      ((0 : ℚ) = 0 → (1 : ℚ) = 0 → chill (0, 1) (1/2) initState = initState) :=
  chill_uniform_bounds 0 1 (1/2) initState (by norm_num) (by norm_num)
    (by norm_num)

theorem SPACE_ne_skip : SPACE ≠ "skip" := by decide

theorem ClickInv_init (n : Nat) : ClickInv n [] (List.replicate n "skip") := by
  refine ⟨List.length_replicate n "skip", List.nodup_nil, by simp, ?_, ?_⟩
  · have hb : (("skip" : String) == SPACE) = false := by decide
    rw [List.count_replicate, hb]
    simp
  · intro i h
    rw [List.getElem_replicate]
    simp

theorem pickIndex_some (n : Nat) (g : Nat → Nat) (sel : List Nat) :
    ∀ (fuel ctr idx c2 : Nat), pickIndex n g sel ctr fuel = some (idx, c2) →
      idx ∉ sel ∧ idx < n := by
  intro fuel
  induction fuel with
  | zero => intro ctr idx c2 h; cases h
  | succ f ih =>
      intro ctr idx c2 h
      rw [pickIndex] at h
      split at h
      · cases h
      · rename_i hn0
        split at h
        · exact ih (ctr + 1) idx c2 h
        · rename_i hmem
          cases h
          exact ⟨hmem, Nat.mod_lt _ (Nat.pos_of_ne_zero hn0)⟩

theorem pickIndex_nil (n : Nat) (hn : n ≠ 0) (g : Nat → Nat) (ctr f : Nat) :
    pickIndex n g [] ctr (f + 1) = some (g ctr % n, ctr + 1) := by
  rw [pickIndex, if_neg hn]
  simp

theorem ClickInv_step (n : Nat) (sel : List Nat) (l : List String) (idx : Nat)
    (hinv : ClickInv n sel l) (hfresh : idx ∉ sel) (hlt : idx < n) :
    ClickInv n (sel ++ [idx]) (l.set idx SPACE) := by
  obtain ⟨hlen, hnd, hbound, hcount, hget⟩ := hinv
  have hidx : idx < l.length := by rw [hlen]; exact hlt
  have hgs : l[idx] = "skip" := by rw [hget idx hidx, if_neg hfresh]
  refine ⟨?_, ?_, ?_, ?_, ?_⟩
  · rw [List.length_set]; exact hlen
  · rw [List.nodup_append]
    exact ⟨hnd, List.nodup_singleton idx, by
      intro a ha hb
      rw [List.mem_singleton] at hb
      exact hfresh (hb ▸ ha)⟩
  · intro x hx
    rcases List.mem_append.1 hx with hx | hx
    · exact hbound x hx
    · rw [List.mem_singleton.1 hx]; exact hlt
  · have hb1 : (l[idx] == SPACE) = false := by
      rw [hgs]; decide
    have hb2 : ((SPACE : String) == SPACE) = true := by decide
    rw [List.count_set SPACE SPACE l idx hidx, hb1, hb2, hcount]
    simp
  · intro i hi
    have hi2 : i < l.length := by rw [List.length_set] at hi; exact hi
    rw [List.getElem_set]
    by_cases hii : idx = i
    · subst hii
      rw [if_pos rfl, if_pos (by simp)]
    · rw [if_neg hii, hget i hi2]
      have hne2 : i ≠ idx := fun hh => hii hh.symm
      by_cases hmem : i ∈ sel
      · rw [if_pos hmem, if_pos (by simp [hmem])]
      · rw [if_neg hmem, if_neg (by simp [hmem, hne2])]

theorem ClickInv_length_le (n : Nat) (sel : List Nat) (l : List String)
    (hinv : ClickInv n sel l) : sel.length ≤ n := by
  obtain ⟨-, hnd, hbound, -, -⟩ := hinv
  have h1 : sel.toFinset.card = sel.length := List.toFinset_card_of_nodup hnd
  have h2 : sel.toFinset ⊆ Finset.range n := by
    intro x hx
    rw [List.mem_toFinset] at hx
    exact Finset.mem_range.2 (hbound x hx)
  calc sel.length = sel.toFinset.card := h1.symm
    _ ≤ (Finset.range n).card := Finset.card_le_card h2
    _ = n := Finset.card_range n

theorem ClickInv_mem (n : Nat) (sel : List Nat) (l : List String)
    (hinv : ClickInv n sel l) : ∀ x ∈ l, x = SPACE ∨ x = "skip" := by
  obtain ⟨-, -, -, -, hget⟩ := hinv
  intro x hx
  obtain ⟨i, h, heq⟩ := List.getElem_of_mem hx
  rw [← heq, hget i h]
  by_cases hm : i ∈ sel
  · rw [if_pos hm]; exact Or.inl rfl
  · rw [if_neg hm]; exact Or.inr rfl

theorem clickLoop_inv (n : Nat) (g : Nat → Nat) (pf : Nat) :
    ∀ (k ctr : Nat) (sel : List Nat) (l l2 : List String) (sel2 : List Nat),
      ClickInv n sel l → clickLoop n g pf k ctr sel l = some (l2, sel2) →
      ClickInv n sel2 l2 ∧ sel2.length = sel.length + k := by
  intro k
  induction k with
  | zero =>
      intro ctr sel l l2 sel2 hinv h
      rw [clickLoop] at h
      cases h
      exact ⟨hinv, rfl⟩
  | succ k ih =>
      intro ctr sel l l2 sel2 hinv h
      cases hp : pickIndex n g sel ctr pf with
      | none => rw [clickLoop] at h; rw [hp] at h; cases h
      | some p =>
          obtain ⟨idx, ctr2⟩ := p
          rw [clickLoop] at h
          rw [hp] at h
          obtain ⟨hfresh, hlt⟩ := pickIndex_some n g sel pf ctr idx ctr2 hp
          obtain ⟨hinv2, hlen2⟩ := ih ctr2 (sel ++ [idx]) (l.set idx SPACE) l2
            sel2 (ClickInv_step n sel l idx hinv hfresh hlt) h
          refine ⟨hinv2, ?_⟩
          rw [hlen2, List.length_append, List.length_singleton]
          omega


theorem clickLoop_overdraw (n : Nat) (g : Nat → Nat) (pf : Nat) :
    ∀ (k ctr : Nat) (sel : List Nat) (l : List String), ClickInv n sel l →
      n < sel.length + k → clickLoop n g pf k ctr sel l = none := by
  intro k
  induction k with
  | zero =>
      intro ctr sel l hinv hover
      have := ClickInv_length_le n sel l hinv
      omega
  | succ k ih =>
      intro ctr sel l hinv hover
      cases hp : pickIndex n g sel ctr pf with
      | none => rw [clickLoop, hp]
      | some p =>
          obtain ⟨idx, ctr2⟩ := p
          obtain ⟨hfresh, hlt⟩ := pickIndex_some n g sel pf ctr idx ctr2 hp
          rw [clickLoop, hp]
          exact ih ctr2 (sel ++ [idx]) (l.set idx SPACE)
            (ClickInv_step n sel l idx hinv hfresh hlt)
            (by rw [List.length_append]; simp; omega)

theorem clickLoop_one (n : Nat) (hn : n ≠ 0) (g : Nat → Nat) (pf ctr : Nat)
    (l : List String) :
    clickLoop n g (pf + 1) (0 + 1) ctr [] l
      = some (l.set (g ctr % n) SPACE, [g ctr % n]) := by
  rw [clickLoop, pickIndex_nil n hn g ctr pf]
  rfl

/-- C8: whenever `get_click_list(num_options, max_choices, min_choices)`
with `1 ≤ min_choices ≤ max_choices ≤ num_options` returns a list, the list
has length `num_options` and holds the chosen value `Keys.SPACE` in exactly
`k` slots (at `k` distinct indices) for some `min_choices ≤ k ≤ max_choices`,
every other slot holding `"skip"`; in particular
`get_click_list(5, max_choices=1, min_choices=1)` always returns a list with
exactly one non-default slot. -/
theorem get_click_list_spec :
    (∀ (n mx mn : Nat) (g : Nat → Nat) (fuel : Nat) (l : List String),
        1 ≤ mn → mn ≤ mx → mx ≤ n → get_click_list n mx mn g fuel = some l →
        l.length = n ∧ ∃ k, mn ≤ k ∧ k ≤ mx ∧ l.count SPACE = k ∧
          ∀ x ∈ l, x = SPACE ∨ x = "skip") ∧
    (∀ (g : Nat → Nat) (fuel : Nat), ∃ l,
        get_click_list 5 1 1 g (fuel + 1) = some l ∧ l.length = 5 ∧
          l.count SPACE = 1 ∧ ∀ x ∈ l, x = SPACE ∨ x = "skip") := by
  constructor
  · intro n mx mn g fuel l hmn hmm hmx h
    rw [get_click_list, if_pos hmm] at h
    cases hc : clickLoop n g fuel (mn + g 0 % (mx - mn + 1)) 1 []
        (List.replicate n "skip") with
    | none => rw [hc] at h; cases h
    | some p =>
        obtain ⟨cl, sel2⟩ := p
        rw [hc] at h
        simp only [Option.some.injEq] at h
        subst h
        obtain ⟨hinv, hlen⟩ := clickLoop_inv n g fuel (mn + g 0 % (mx - mn + 1))
          1 [] (List.replicate n "skip") cl sel2 (ClickInv_init n) hc
        have hd : 0 < mx - mn + 1 := Nat.succ_pos _
        have hmod := Nat.mod_lt (g 0) hd
        have hsel : sel2.length = mn + g 0 % (mx - mn + 1) := by
          rw [hlen]; simp
        refine ⟨hinv.1, sel2.length, ?_, ?_, hinv.2.2.2.1,
          ClickInv_mem n sel2 cl hinv⟩
        · omega
        · omega
  · intro g fuel
    have hk : 1 + g 0 % (1 - 1 + 1) = 0 + 1 := by simp [Nat.mod_one]
    have hlt : g 1 % 5 < 5 := Nat.mod_lt _ (by norm_num)
    have hinv : ClickInv 5 ([] ++ [g 1 % 5])
        ((List.replicate 5 "skip").set (g 1 % 5) SPACE) :=
      ClickInv_step 5 [] (List.replicate 5 "skip") (g 1 % 5) (ClickInv_init 5)
        (by simp) hlt
    refine ⟨(List.replicate 5 "skip").set (g 1 % 5) SPACE, ?_, hinv.1, ?_, ?_⟩
    · rw [get_click_list, if_pos (le_refl 1), hk,
        clickLoop_one 5 (by norm_num) g fuel 1 (List.replicate 5 "skip")]
    · rw [hinv.2.2.2.1]
      rfl
    · exact ClickInv_mem 5 ([] ++ [g 1 % 5])
        ((List.replicate 5 "skip").set (g 1 % 5) SPACE) hinv

theorem get_click_list_spec_witness :
    (([SPACE, "skip", "skip"] : List String).length = 3 ∧
      ∃ k, 1 ≤ k ∧ k ≤ 2 ∧ ([SPACE, "skip", "skip"] : List String).count SPACE = k ∧
        ∀ x ∈ ([SPACE, "skip", "skip"] : List String), x = SPACE ∨ x = "skip") ∧
    (∃ l, get_click_list 5 1 1 (fun _ => 0) (0 + 1) = some l ∧ l.length = 5 ∧
      l.count SPACE = 1 ∧ ∀ x ∈ l, x = SPACE ∨ x = "skip") :=
  ⟨get_click_list_spec.1 3 2 1 (fun _ => 0) 5 [SPACE, "skip", "skip"]
      (le_refl 1) (by norm_num) (by norm_num) (by decide),
    get_click_list_spec.2 (fun _ => 0) 0⟩

/-- C10: when the choice count drawn by
`random.randint(min_choices, max_choices)` exceeds `num_options` (for
example whenever `min_choices > num_options`), the inner index-search loop
of `get_click_list` can never find enough unused indices, so the call never
returns no matter how many draws are attempted — callers must keep
`min_choices` and `max_choices` at most `num_options`. -/
theorem get_click_list_overdraw_diverges (n mx mn : Nat) (g : Nat → Nat)
    (fuel : Nat) (_hn : 1 ≤ n) (hmm : mn ≤ mx)
    (hover : n < mn + g 0 % (mx - mn + 1)) :
    get_click_list n mx mn g fuel = none := by
  have h := clickLoop_overdraw n g fuel (mn + g 0 % (mx - mn + 1)) 1 []
    (List.replicate n "skip") (ClickInv_init n) (by simpa using hover)
  rw [get_click_list, if_pos hmm, h]

theorem get_click_list_overdraw_diverges_witness :
    get_click_list 2 5 5 (fun _ => 0) 7 = none :=
  get_click_list_overdraw_diverges 2 5 5 (fun _ => 0) 7 (by norm_num)
    (by norm_num) (by norm_num)

theorem get_cons_eraseIdx_perm :
    ∀ (l : List String) (i : Nat) (h : i < l.length),
      List.Perm (l.get ⟨i, h⟩ :: l.eraseIdx i) l := by
  intro l
  induction l with
  | nil => intro i h; exact absurd h (Nat.not_lt_zero i)
  | cons a t ih =>
      intro i h
      cases i with
      | zero => exact List.Perm.refl _
      | succ i =>
          have h2 : i < t.length := Nat.lt_of_succ_lt_succ h
          show List.Perm (t.get ⟨i, h2⟩ :: a :: t.eraseIdx i) (a :: t)
          exact (List.Perm.swap a (t.get ⟨i, h2⟩) (t.eraseIdx i)).trans
            (List.Perm.cons a (ih i h2))

theorem sampleAux_total (g : Nat → Nat) :
    ∀ (k ctr : Nat) (pool : List String), k ≤ pool.length →
      ∃ res, sampleAux g ctr k pool = some res := by
  intro k
  induction k with
  | zero => intro ctr pool h; exact ⟨[], rfl⟩
  | succ k ih =>
      intro ctr pool h
      have hp : 0 < pool.length := by omega
      have hklen : k ≤ (pool.eraseIdx (g ctr % pool.length)).length := by
        rw [List.length_eraseIdx, if_pos (Nat.mod_lt _ hp)]
        omega
      obtain ⟨rest, hrest⟩ := ih (ctr + 1) (pool.eraseIdx (g ctr % pool.length))
        hklen
      refine ⟨pool.get ⟨g ctr % pool.length, Nat.mod_lt _ hp⟩ :: rest, ?_⟩
      rw [sampleAux, dif_pos hp, hrest]

theorem sampleAux_spec (g : Nat → Nat) :
    ∀ (k ctr : Nat) (pool res : List String),
      sampleAux g ctr k pool = some res →
      res.length = k ∧ res.Subperm pool := by
  intro k
  induction k with
  | zero =>
      intro ctr pool res h
      rw [sampleAux] at h
      cases h
      exact ⟨rfl, List.nil_subperm⟩
  | succ k ih =>
      intro ctr pool res h
      rw [sampleAux] at h
      split at h
      · rename_i hp
        cases hrec : sampleAux g (ctr + 1) k
            (pool.eraseIdx (g ctr % pool.length)) with
        | none => rw [hrec] at h; cases h
        | some rest =>
            rw [hrec] at h
            simp only [Option.some.injEq] at h
            subst h
            obtain ⟨hlen, hsub⟩ := ih (ctr + 1)
              (pool.eraseIdx (g ctr % pool.length)) rest hrec
            refine ⟨by rw [List.length_cons, hlen], ?_⟩
            have h1 : List.Subperm
                (pool.get ⟨g ctr % pool.length, Nat.mod_lt _ hp⟩ :: rest)
                (pool.get ⟨g ctr % pool.length, Nat.mod_lt _ hp⟩ ::
                  pool.eraseIdx (g ctr % pool.length)) :=
              (List.subperm_cons _).2 hsub
            exact h1.trans
              (get_cons_eraseIdx_perm pool (g ctr % pool.length)
                (Nat.mod_lt _ hp)).subperm
      · cases h

/-- C9: for a non-empty locator list and bounds
`1 ≤ min_selections ≤ max_selections ≤ len(locators)` (with
`max_selections` defaulting to `len(locators)` when not given),
`click_elements` clicks a randomly chosen subset of between
`min_selections` and `max_selections` locators drawn from distinct
positions of the list, and returns the element of the last locator
clicked. -/
theorem click_elements_spec (locators : List String) (mxo : Option Nat)
    (mn : Nat) (g : Nat → Nat) (u : Nat → ℚ) (s : UserState) (hmin : 1 ≤ mn)
    (hminmax : mn ≤ resolveMax locators mxo)
    (hmax : resolveMax locators mxo ≤ locators.length) :
    ∃ (e : String) (s2 : UserState) (chosen : List String),
      click_elements locators mxo mn g u s = some (e, s2) ∧
      chosen.Subperm locators ∧ mn ≤ chosen.length ∧
      chosen.length ≤ resolveMax locators mxo ∧
      s2.clicks = s.clicks ++ chosen ∧ chosen.getLast? = some e := by
  have hd : 0 < resolveMax locators mxo - mn + 1 := Nat.succ_pos _
  have hmod := Nat.mod_lt (g 0) hd
  have hk2 : mn + g 0 % (resolveMax locators mxo - mn + 1)
      ≤ resolveMax locators mxo := by omega
  obtain ⟨chosen, hs⟩ := sampleAux_total g
    (mn + g 0 % (resolveMax locators mxo - mn + 1)) 1 locators
    (le_trans hk2 hmax)
  obtain ⟨hlen, hsub⟩ := sampleAux_spec g
    (mn + g 0 % (resolveMax locators mxo - mn + 1)) 1 locators chosen hs
  have hne2 : chosen ≠ [] := by
    apply List.ne_nil_of_length_pos
    omega
  refine ⟨chosen.getLast hne2, clickAll u chosen 0 s, chosen, ?_, hsub, ?_, ?_,
    clickAll_clicks u chosen 0 s, List.getLast?_eq_getLast chosen hne2⟩
  · rw [click_elements, if_pos hminmax]
    simp only [hs, List.getLast?_eq_getLast chosen hne2]
  · omega
  · omega

theorem click_elements_spec_witness :
    ∃ (e : String) (s2 : UserState) (chosen : List String),
      click_elements ["a", "b"] none 1 (fun _ => 0) (fun _ => 0) initState
          = some (e, s2) ∧
        chosen.Subperm ["a", "b"] ∧ 1 ≤ chosen.length ∧
        chosen.length ≤ resolveMax ["a", "b"] none ∧
        s2.clicks = initState.clicks ++ chosen ∧ chosen.getLast? = some e :=
  click_elements_spec ["a", "b"] none 1 (fun _ => 0) (fun _ => 0) initState
    (le_refl 1) (by decide) (by decide)

end Seleniumuser
